import Mathlib

set_option maxRecDepth 10000

/-!
Verification of the Prisoner's Dilemma tournament engine
(`code/prisonersDilemma.py`), shallowly embedded in Lean 4.

Machine integers are modelled as `Int`/`Nat`, Python float arithmetic on
scores and turn chances as exact rationals (`ℚ`), and the one transcendental
computation (`np.log` in the stochastic game-length draw) over `ℝ`.
Strategy modules are modelled as pure functions that additionally thread an
abstract global random-generator state `ρ` through every invocation in
program order, so that a strategy drawing on the global RNG can legitimately
return different moves on the official call and on the probe call.
-/

/-- A Python value returned by a strategy as its move: a string or an int
(the two cases `strategyMove` distinguishes). -/
inductive PyMove where
  | str : String → PyMove
  | int : Int → PyMove
deriving DecidableEq

instance : Inhabited PyMove := ⟨PyMove.int 0⟩

/-- `strategyMove` (lines 131-136): a string is normalized by membership in
`["defect", "tell truth"]`; any non-string value is returned unchanged. -/
def strategyMove : PyMove → Int
  | PyMove.str s => if s = "defect" ∨ s = "tell truth" then 0 else 1
  | PyMove.int n => n

/-- `pointsArray` (lines 123-126): row = own move, column = opponent move. -/
def pointsArray : List (List ℚ) := [[1, 5], [0, 3]]

/-- `pointsArray[m1][m2]`, the per-turn payoff for playing `m1` against `m2`.
Out-of-range indices (which would raise in Python) default to 0. -/
def payoff (m1 m2 : Int) : ℚ := (pointsArray.getD m1.toNat []).getD m2.toNat 0

/-- A move history: entry `t` is `(history[0,t], history[1,t])`, i.e. player
A's move and player B's move at turn `t`. -/
abbrev Hist := List (Int × Int)

/-- `historyFlipped`: the same history with the two rows exchanged, as
presented to player B. -/
def flipHist (h : Hist) : Hist := h.map (fun p => (p.2, p.1))

/-- A strategy module's `strategy` function: takes the history prefix (own
moves in row 0), the opaque memory (initially `None`), and the global RNG
state, and returns a move, the new memory, and the advanced RNG state. -/
abbrev Strategy (μ ρ : Type) := Hist → Option μ → ρ → PyMove × Option μ × ρ

/-- `turnChance(x, summing=True)` (lines 164-170): the running sum
`S(0) = 1/40`, `S(x+1) = (1 - S(x))/40 + S(x)`. -/
def turnChanceSum : Nat → ℚ
  | 0 => 1 / 40
  | x + 1 => (1 - turnChanceSum x) / 40 + turnChanceSum x

/-- `turnChance(x)` (lines 164-170): the marginal stop probability,
`P(0) = 1/40`, `P(x+1) = (1 - S(x))/40`. -/
def turnChance : Nat → ℚ
  | 0 => 1 / 40
  | x + 1 => (1 - turnChanceSum x) / 40

/-- The un-normalized table `[turnChance(i) for i in range(D - 199)]`
(lines 162-173), for deterministic turn count `D`. -/
def turnChancesRaw (D : Nat) : List ℚ := (List.range (D - 199)).map turnChance

/-- `chancesSum = sum(turnChances)` (line 177). -/
def chancesSum (D : Nat) : ℚ := (turnChancesRaw D).sum

/-- The normalized table `[i/chancesSum for i in turnChances]` (line 178). -/
def turnChances (D : Nat) : List ℚ := (turnChancesRaw D).map (fun i => i / chancesSum D)

/-- Player A's payoff at turn `t` of history `h`:
`pointsArray[history[0,turn]][history[1,turn]]`. -/
def payoffAtA (h : Hist) (t : Nat) : ℚ := payoff (h.getD t (0, 0)).1 (h.getD t (0, 0)).2

/-- Player B's payoff at turn `t` of history `h`:
`pointsArray[history[1,turn]][history[0,turn]]`. -/
def payoffAtB (h : Hist) (t : Nat) : ℚ := payoff (h.getD t (0, 0)).2 (h.getD t (0, 0)).1

/-- The loop state of `runDeterministic` (lines 180-204): official history so
far, the two official memories, the two probe memories, and the global RNG. -/
structure DetState (α β ρ : Type) where
  hist : Hist
  memA : Option α
  memB : Option β
  memA2 : Option α
  memB2 : Option β
  rng : ρ

/-- The four normalized move codes produced in one iteration of the
`runDeterministic` loop: official A, official B, probe A, probe B. -/
structure TurnMoves where
  a : Int
  b : Int
  a2 : Int
  b2 : Int
deriving DecidableEq

instance : Inhabited TurnMoves := ⟨⟨0, 0, 0, 0⟩⟩

/-- One iteration of the `runDeterministic` loop body (lines 190-204): the
official calls extend the history; the probe calls reuse the identical
history prefix but independently threaded memories. The RNG state is
threaded through all four calls in program order. -/
def detStep {α β ρ : Type} (A : Strategy α ρ) (B : Strategy β ρ) (st : DetState α β ρ) :
    TurnMoves × DetState α β ρ :=
  let rA := A st.hist st.memA st.rng
  let rB := B (flipHist st.hist) st.memB rA.2.2
  let a := strategyMove rA.1
  let b := strategyMove rB.1
  let rA2 := A st.hist st.memA2 rB.2.2
  let rB2 := B (flipHist st.hist) st.memB2 rA2.2.2
  (⟨a, b, strategyMove rA2.1, strategyMove rB2.1⟩,
   ⟨st.hist ++ [(a, b)], rA.2.1, rB.2.1, rA2.2.1, rB2.2.1, rB2.2.2⟩)

/-- The `runDeterministic` main loop with early exit: `none` as soon as a
probe move disagrees with the corresponding official move (lines 198-201),
checking player A's disagreement first, then player B's. -/
def detRun {α β ρ : Type} (A : Strategy α ρ) (B : Strategy β ρ) :
    Nat → DetState α β ρ → Option (DetState α β ρ)
  | 0, st => some st
  | n + 1, st =>
    let r := detStep A B st
    if r.1.a2 ≠ r.1.a then none
    else if r.1.b2 ≠ r.1.b then none
    else detRun A B n r.2

/-- The same loop run to completion with no early exit, recording the four
move codes of every turn; used to state which turns disagree. -/
def detTrace {α β ρ : Type} (A : Strategy α ρ) (B : Strategy β ρ) :
    Nat → DetState α β ρ → List TurnMoves
  | 0, _ => []
  | n + 1, st =>
    let r := detStep A B st
    r.1 :: detTrace A B n r.2

/-- Initial state of `runDeterministic`: empty history, all four memories
`None` (lines 181-184), given the current global RNG state. -/
def detInit {α β ρ : Type} (rng : ρ) : DetState α β ρ := ⟨[], none, none, none, none, rng⟩

/-- One iteration of the first scoring loop (lines 209-211):
`scores[p] += pointsArray[...]`. -/
def scoreStep (h : Hist) (s : ℚ × ℚ) (t : Nat) : ℚ × ℚ :=
  (s.1 + payoffAtA h t, s.2 + payoffAtB h t)

/-- One iteration of the second scoring loop (lines 213-218): update the
running scores, then accumulate `scores[p]/(turn+1) * turnChances[turn-199]`
into the totals. -/
def totalStep (chances : List ℚ) (h : Hist) (acc : (ℚ × ℚ) × (ℚ × ℚ)) (t : Nat) :
    (ℚ × ℚ) × (ℚ × ℚ) :=
  let sc := scoreStep h acc.1 t
  (sc,
   (acc.2.1 + sc.1 / ((t : ℚ) + 1) * chances.getD (t - 199) 0,
    acc.2.2 + sc.2 / ((t : ℚ) + 1) * chances.getD (t - 199) 0))

/-- The scoring pass of `runDeterministic` (lines 206-218): running
cumulative scores over turns `0..198`, then from turn 199 to `D-1` the
weighted accumulation of the cumulative-average scores into `totals`. -/
def detTotals (chances : List ℚ) (h : Hist) (D : Nat) : ℚ × ℚ :=
  ((List.range' 199 (D - 199)).foldl (totalStep chances h)
    ((List.range 199).foldl (scoreStep h) (0, 0), (0, 0))).2

/-- `runDeterministic(moduleA, moduleB)` (lines 180-220) with deterministic
turn count `D`: `none` models the `return False` path; otherwise the pair of
expected average scores together with the full-length history. -/
def runDeterministic {α β ρ : Type} (A : Strategy α ρ) (B : Strategy β ρ) (D : Nat) (rng : ρ) :
    Option ((ℚ × ℚ) × Hist) :=
  match detRun A B D (detInit rng) with
  | none => none
  | some st => some (detTotals (turnChances D) st.hist D, st.hist)

/-- Cumulative payoff of player A over turns `0 .. n-1` of `h` (the value of
`scores[0]` after `n` loop iterations of lines 209-215). -/
def cumScoreA (h : Hist) (n : Nat) : ℚ := ((List.range n).map (payoffAtA h)).sum

/-- Cumulative payoff of player B over turns `0 .. n-1` of `h`. -/
def cumScoreB (h : Hist) (n : Nat) : ℚ := ((List.range n).map (payoffAtB h)).sum

/-- The closed-form stopping-time-weighted expectation for player A that the
spec describes: the sum over truncation turns `t ∈ [199, D)` of the
cumulative payoff through turn `t`, divided by `t+1`, weighted by the
chance-table entry for stopping at `t`. -/
def expectedTotalA (chances : List ℚ) (h : Hist) (D : Nat) : ℚ :=
  ∑ t ∈ Finset.Ico 199 D, cumScoreA h (t + 1) / ((t : ℚ) + 1) * chances.getD (t - 199) 0

/-- The closed-form stopping-time-weighted expectation for player B. -/
def expectedTotalB (chances : List ℚ) (h : Hist) (D : Nat) : ℚ :=
  ∑ t ∈ Finset.Ico 199 D, cumScoreB h (t + 1) / ((t : ℚ) + 1) * chances.getD (t - 199) 0

/-- `LENGTH_OF_GAME` (lines 145-147): `int(200 - 40*np.log(1-random.random()))`,
modelled over the reals as a function of the uniform draw `u`; Python's `int`
truncates toward zero, which agrees with the floor on this nonnegative value. -/
noncomputable def LENGTH_OF_GAME (u : ℝ) : ℤ := ⌊(200 : ℝ) - 40 * Real.log (1 - u)⌋

/-- The loop state of `runRound` (lines 139-160): history so far, the two
official memories, and the global RNG state. -/
structure RoundState (α β ρ : Type) where
  hist : Hist
  memA : Option α
  memB : Option β
  rng : ρ

/-- One iteration of the `runRound` loop body (lines 151-158). -/
def roundStep {α β ρ : Type} (A : Strategy α ρ) (B : Strategy β ρ) (st : RoundState α β ρ) :
    RoundState α β ρ :=
  let rA := A st.hist st.memA st.rng
  let rB := B (flipHist st.hist) st.memB rA.2.2
  ⟨st.hist ++ [(strategyMove rA.1, strategyMove rB.1)], rA.2.1, rB.2.1, rB.2.2⟩

/-- `runRound` (lines 139-160), run for a given realized game length starting
from the given state. -/
def runRound {α β ρ : Type} (A : Strategy α ρ) (B : Strategy β ρ) :
    Nat → RoundState α β ρ → RoundState α β ρ
  | 0, st => st
  | n + 1, st => runRound A B n (roundStep A B st)

/-- `tallyRoundScores` (lines 223-232): per-player average payoff over the
round, total payoff divided by the round length. -/
def tallyRoundScores (h : Hist) : ℚ × ℚ :=
  (((List.range h.length).map (payoffAtA h)).sum / (h.length : ℚ),
   ((List.range h.length).map (payoffAtB h)).sum / (h.length : ℚ))

/-- The stochastic fallback loop of `runRounds` (lines 284-290): `numRuns`
rounds, the realized game length of run `i` given by `lens i`, the RNG state
threaded from each round into the next. -/
def stochScores {α β ρ : Type} (A : Strategy α ρ) (B : Strategy β ρ) :
    Nat → (Nat → Nat) → ρ → List (ℚ × ℚ)
  | 0, _, _ => []
  | n + 1, lens, rng =>
    let st := runRound A B (lens 0) (⟨[], none, none, rng⟩ : RoundState α β ρ)
    tallyRoundScores st.hist :: stochScores A B n (fun i => lens (i + 1)) st.rng

/-- The simulation dispatch of `runRounds` (lines 277-290): the exact
deterministic result as a single sample when the pair is deterministic,
otherwise `NUM_RUNS` sampled rounds. -/
def runRoundsScores {α β ρ : Type} (A : Strategy α ρ) (B : Strategy β ρ)
    (D numRuns : Nat) (lens : Nat → Nat) (rng : ρ) : List (ℚ × ℚ) :=
  match runDeterministic A B D rng with
  | some r => [r.1]
  | none => stochScores A B numRuns lens rng

/-- Whether a turn of the determinism probe disagrees: a probe move whose
normalized code differs from the official move of the same player. -/
def disagrees (tm : TurnMoves) : Prop := tm.a2 ≠ tm.a ∨ tm.b2 ≠ tm.b

instance (tm : TurnMoves) : Decidable (disagrees tm) := by
  unfold disagrees
  infer_instance

/-- One step of an ascending insertion argsort: insert index `i` before the
first index with a strictly larger score. `np.argsort`'s default introsort
(line 421) runs exactly this insertion sort on sub-arrays below its
small-array cutoff (about 16 elements), so within that regime — in
particular on a two-element score table — this computes numpy's result, with
equal keys keeping index order. For larger arrays numpy's default sort only
guarantees an ascending permutation, with the relative order of equal keys
unspecified; the ranking theorem is therefore stated over that contract and
this function is used only to evaluate the concrete small instance. -/
def insertIdx (scores : List ℚ) (i : Nat) : List Nat → List Nat
  | [] => [i]
  | j :: rest =>
    if scores.getD i 0 < scores.getD j 0 then i :: j :: rest else j :: insertIdx scores i rest

/-- Indices `0 .. k-1` insertion-sorted ascending by score. -/
def argsortAux (scores : List ℚ) : Nat → List Nat
  | 0 => []
  | k + 1 => insertIdx scores k (argsortAux scores k)

/-- `rankings = np.argsort(scoresNumpy)` (line 421), in the small-array
regime where numpy's introsort is a single insertion sort. -/
def argsort (scores : List ℚ) : List Nat := argsortAux scores scores.length

/-- The ranking order actually printed (lines 441-447): the loop reads
`rankings[-1-rank]`, i.e. the ascending argsort reversed. -/
def rankingDesc (scores : List ℚ) : List Nat := (argsort scores).reverse

/-- One pairing's contribution to the score keeper: the pairing
`((iA, iB), (avgScoreA, avgScoreB))` adds `avgScoreA` to strategy `iA` and
`avgScoreB` to strategy `iB` (lines 410-411). -/
def updateScores (sk : Nat → ℚ) (r : (Nat × Nat) × (ℚ × ℚ)) : Nat → ℚ :=
  fun k =>
    let sk1 := fun j => if j = r.1.1 then sk j + r.2.1 else sk j
    if k = r.1.2 then sk1 k + r.2.2 else sk1 k

/-- `scoreKeeper` after all pairings, starting from all zeros (lines 350-351,
410-411). -/
def scoreKeeper (results : List ((Nat × Nat) × (ℚ × ℚ))) : Nat → ℚ :=
  results.foldl updateScores (fun _ => 0)

/-- `scoresNumpy` (lines 418-420): the per-strategy cumulative scores read
out into a list indexed by enumeration order. -/
def scoresNumpy (n : Nat) (results : List ((Nat × Nat) × (ℚ × ℚ))) : List ℚ :=
  (List.range n).map (scoreKeeper results)

/-- The spec-side cumulative score of strategy `i`: the sum of its mean
scores over all its pairings. -/
def cumOf (i : Nat) (results : List ((Nat × Nat) × (ℚ × ℚ))) : ℚ :=
  (results.map (fun r =>
    (if i = r.1.1 then r.2.1 else 0) + (if i = r.1.2 then r.2.2 else 0))).sum

/-- Observable engine actions, used to state which work happens on which
control-flow path. -/
inductive Ev where
  | cacheDelete
  | cacheSetup
  | cacheGet
  | importModule
  | simulate
  | cacheInsert
  | dispatch
deriving DecidableEq

/-- A cache entry for a pairing, as stored by `cache.insert` and returned by
`cache.get` (lines 263-266, 311): mean scores, standard deviations, and the
representative history. -/
structure PairEntry where
  avgA : ℚ
  avgB : ℚ
  stdevA : ℚ
  stdevB : ℚ
  hist : Hist
deriving DecidableEq

/-- The tuple `runRounds` returns (lines 266, 314): cached flag, the entry
fields, and the elapsed compute time. -/
structure RoundsOut where
  cached : Bool
  avgA : ℚ
  avgB : ℚ
  stdevA : ℚ
  stdevB : ℚ
  hist : Hist
  time : ℚ
deriving DecidableEq

/-- The control flow of `runRounds` (lines 259-314) around the simulation:
on a cache hit it returns the entry with `cached = True` and a time of `0`
(line 266) and performs nothing else; otherwise it imports both strategy
modules, simulates, optionally inserts into the cache, and reports the
elapsed time. `fresh` abstracts the freshly computed result and `elapsed`
the wall-clock time that computation takes. -/
def runRoundsProc (useCache : Bool) (lookup : Option PairEntry) (elapsed : ℚ)
    (fresh : PairEntry) : List Ev × RoundsOut :=
  if useCache then
    match lookup with
    | some r =>
      ([Ev.cacheGet], ⟨true, r.avgA, r.avgB, r.stdevA, r.stdevB, r.hist, 0⟩)
    | none =>
      ([Ev.cacheGet, Ev.importModule, Ev.importModule, Ev.simulate, Ev.cacheInsert],
       ⟨false, fresh.avgA, fresh.avgB, fresh.stdevA, fresh.stdevB, fresh.hist, elapsed⟩)
  else
    ([Ev.importModule, Ev.importModule, Ev.simulate],
     ⟨false, fresh.avgA, fresh.avgB, fresh.stdevA, fresh.stdevB, fresh.hist, elapsed⟩)

/-- `strategyTimes[nameA] += pairTime; strategyTimes[nameB] += pairTime`
(lines 390-391). -/
def updateTimes (times : Nat → ℚ) (a b : Nat) (t : ℚ) : Nat → ℚ :=
  fun k => times k + (if k = a then t else 0) + (if k = b then t else 0)

/-- The top-level control flow relevant to configuration errors: the
`--det-turns` check at import time (lines 110-111), then inside
`runFullPairingTournament` the optional cache delete (lines 325-331) and
cache setup (lines 333-335), then the eligible-strategy count check
(lines 347-348), and only after that the dispatch of the pairings to the
worker pool (lines 356-367), each pairing importing its two strategy modules
and simulating (lines 274-290) and optionally inserting into the cache.
Returns the trace of performed actions and the fatal error, if any. -/
def mainFlow (detTurns eligible : Nat) (deleteCache useCache : Bool)
    (pairs : List (Nat × Nat)) : List Ev × Option String :=
  if detTurns < 200 then ([], some "--det-turns must be at least 200")
  else
    let evs := (if deleteCache then [Ev.cacheDelete] else []) ++
      (if useCache then [Ev.cacheSetup] else [])
    if eligible < 2 then (evs, some "Not enough strategies!")
    else
      (evs ++ pairs.foldr (fun _ acc =>
        [Ev.dispatch, Ev.importModule, Ev.importModule, Ev.simulate, Ev.cacheInsert] ++ acc) [],
       none)

/-- A strategy that always cooperates (returns move code 1), ignoring history,
memory and the RNG. -/
def coopU : Strategy Unit Unit := fun _ m r => (PyMove.int 1, m, r)

/-- A strategy that always defects (returns move code 0). -/
def defectU : Strategy Unit Unit := fun _ m r => (PyMove.int 0, m, r)

/-- A strategy that consults the global RNG (modelled as a counter advanced on
every invocation): its move depends on the draw, so the probe invocation can
disagree with the official one. -/
def rndU : Strategy Unit Nat := fun _ m r => (PyMove.int (if r % 3 = 0 then 0 else 1), m, r + 1)

/-! ## Turn-chance table lemmas -/

theorem sum_range_turnChance (n : Nat) :
    ((List.range (n + 1)).map turnChance).sum = turnChanceSum n := by
  induction n with
  | zero => simp [List.range_succ, turnChance, turnChanceSum]
  | succ n ih =>
    rw [List.range_succ, List.map_append, List.sum_append, ih]
    simp [turnChance, turnChanceSum]
    ring

theorem turnChanceSum_mem_unit (n : Nat) : 0 < turnChanceSum n ∧ turnChanceSum n < 1 := by
  induction n with
  | zero => norm_num [turnChanceSum]
  | succ n ih =>
    obtain ⟨h0, h1⟩ := ih
    have hpos : (0 : ℚ) < 1 - turnChanceSum n := by linarith
    have hdiv : 0 < (1 - turnChanceSum n) / 40 := div_pos hpos (by norm_num)
    have hlt : (1 - turnChanceSum n) / 40 < 1 - turnChanceSum n :=
      div_lt_self hpos (by norm_num)
    constructor
    · show 0 < (1 - turnChanceSum n) / 40 + turnChanceSum n
      linarith
    · show (1 - turnChanceSum n) / 40 + turnChanceSum n < 1
      linarith

theorem chancesSum_eq (D : Nat) (hD : 200 ≤ D) : chancesSum D = turnChanceSum (D - 200) := by
  have h : D - 199 = (D - 200) + 1 := by omega
  rw [chancesSum, turnChancesRaw, h, sum_range_turnChance]

theorem chancesSum_pos (D : Nat) (hD : 200 ≤ D) : 0 < chancesSum D := by
  rw [chancesSum_eq D hD]
  exact (turnChanceSum_mem_unit _).1

theorem sum_map_div (l : List ℚ) (s : ℚ) : (l.map (fun i => i / s)).sum = l.sum / s := by
  induction l with
  | nil => simp
  | cons x xs ih => simp [ih, add_div]

theorem turnChances_sum (D : Nat) (hD : 200 ≤ D) : (turnChances D).sum = 1 := by
  rw [turnChances, sum_map_div]
  exact div_self (ne_of_gt (chancesSum_pos D hD))

/-! ## C5 -/

/-- C5: the turn-chance table is built by the recursion `P(0) = 1/40`,
`P(i+1) = (1 - Ssum(i))/40`, `Ssum(0) = 1/40`,
`Ssum(i+1) = (1 - Ssum(i))/40 + Ssum(i)`, over the `D - 199` indices
`i = 0 .. D - 200`; after dividing every entry by the table's own sum, the
entries sum to exactly 1 over rational arithmetic, for any configured
deterministic turn count `D ≥ 200`. -/
theorem turnChances_recursion_and_normalized (D : Nat) (hD : 200 ≤ D) :
    turnChance 0 = 1 / 40 ∧
    (∀ i, turnChance (i + 1) = (1 - turnChanceSum i) / 40) ∧
    turnChanceSum 0 = 1 / 40 ∧
    (∀ i, turnChanceSum (i + 1) = (1 - turnChanceSum i) / 40 + turnChanceSum i) ∧
    turnChancesRaw D = (List.range (D - 199)).map turnChance ∧
    (turnChancesRaw D).length = D - 199 ∧
    turnChances D = (turnChancesRaw D).map (fun i => i / chancesSum D) ∧
    (turnChances D).sum = 1 := by
  refine ⟨rfl, fun i => rfl, rfl, fun i => rfl, rfl, ?_, rfl, turnChances_sum D hD⟩
  simp [turnChancesRaw]

/-- Witness for C5 at the minimal deterministic turn count `D = 200`. -/
theorem turnChances_recursion_and_normalized_witness :
    turnChance 0 = 1 / 40 ∧
    (∀ i, turnChance (i + 1) = (1 - turnChanceSum i) / 40) ∧
    turnChanceSum 0 = 1 / 40 ∧
    (∀ i, turnChanceSum (i + 1) = (1 - turnChanceSum i) / 40 + turnChanceSum i) ∧
    turnChancesRaw 200 = (List.range (200 - 199)).map turnChance ∧
    (turnChancesRaw 200).length = 200 - 199 ∧
    turnChances 200 = (turnChancesRaw 200).map (fun i => i / chancesSum 200) ∧
    (turnChances 200).sum = 1 :=
  turnChances_recursion_and_normalized 200 (by decide)

/-! ## C7 -/

/-- C7: the payoff table is `payoff(0,0)=1`, `payoff(0,1)=5`, `payoff(1,0)=0`,
`payoff(1,1)=3` (first argument the player's own move, 0 = defect,
1 = cooperate) and satisfies the Prisoner's Dilemma ordering
`payoff(0,1) > payoff(1,1) > payoff(0,0) > payoff(1,0)`. -/
theorem payoff_table_and_ordering :
    payoff 0 0 = 1 ∧ payoff 0 1 = 5 ∧ payoff 1 0 = 0 ∧ payoff 1 1 = 3 ∧
    payoff 1 1 < payoff 0 1 ∧ payoff 0 0 < payoff 1 1 ∧ payoff 1 0 < payoff 0 0 := by
  refine ⟨rfl, rfl, rfl, rfl, ?_, ?_, ?_⟩ <;> norm_num [payoff, pointsArray]

/-! ## C8 -/

/-- C8 counterexample: the integer move `0` is neither the string
`"defect"` nor `"tell truth"`, yet `strategyMove` maps it to `0`, not to
`1 (cooperate)` as the claim ("anything else maps to 1") requires. -/
theorem strategyMove_int_not_coop :
    PyMove.int 0 ≠ PyMove.str "defect" ∧ PyMove.int 0 ≠ PyMove.str "tell truth" ∧
    strategyMove (PyMove.int 0) = 0 ∧ strategyMove (PyMove.int 0) ≠ 1 := by
  refine ⟨?_, ?_, rfl, ?_⟩ <;> decide

/-- C8 amended: the strings `"defect"` and `"tell truth"` normalize to
`0 (defect)` and every other string to `1 (cooperate)`; a non-string move
value is returned unchanged. -/
theorem strategyMove_normalization :
    (∀ s : String,
      strategyMove (PyMove.str s) = if s = "defect" ∨ s = "tell truth" then 0 else 1) ∧
    (∀ n : Int, strategyMove (PyMove.int n) = n) :=
  ⟨fun _ => rfl, fun _ => rfl⟩

/-! ## C9 -/

/-- C9: if the configured deterministic turn count is below 200, or fewer than
two eligible strategies remain after filtering, the program reports a fatal
error, and the trace of performed actions contains no pairing dispatch, no
strategy-module import, no simulation and no cache insertion. -/
theorem mainFlow_failfast (detTurns eligible : Nat) (dc uc : Bool)
    (pairs : List (Nat × Nat)) (h : detTurns < 200 ∨ eligible < 2) :
    (mainFlow detTurns eligible dc uc pairs).2.isSome = true ∧
    ∀ e ∈ (mainFlow detTurns eligible dc uc pairs).1,
      e ≠ Ev.dispatch ∧ e ≠ Ev.importModule ∧ e ≠ Ev.simulate ∧ e ≠ Ev.cacheInsert := by
  by_cases h1 : detTurns < 200
  · simp [mainFlow, h1]
  · have h2 : eligible < 2 := by omega
    simp only [mainFlow, if_neg h1, if_pos h2]
    refine ⟨rfl, ?_⟩
    intro e he
    cases dc <;> cases uc <;> simp_all <;> rcases he with he | he <;> subst he <;> simp

/-- Witness for C9: deterministic turn count 100 with five strategies. -/
theorem mainFlow_failfast_witness :
    (mainFlow 100 5 true true [(0, 1)]).2.isSome = true ∧
    ∀ e ∈ (mainFlow 100 5 true true [(0, 1)]).1,
      e ≠ Ev.dispatch ∧ e ≠ Ev.importModule ∧ e ≠ Ev.simulate ∧ e ≠ Ev.cacheInsert :=
  mainFlow_failfast 100 5 true true [(0, 1)] (Or.inl (by decide))

/-! ## C10 -/

/-- C10: with caching enabled and a cache hit, `runRounds` returns the cached
entry with the cached flag `True` and an elapsed time of exactly `0`, performs
no module import, no simulation and no cache insertion, and the per-strategy
cumulative compute times are left unchanged by the pairing. -/
theorem runRounds_cache_hit (lookup : Option PairEntry) (elapsed : ℚ)
    (fresh r : PairEntry) (times : Nat → ℚ) (a b : Nat) (hl : lookup = some r) :
    (runRoundsProc true lookup elapsed fresh).2 =
      ⟨true, r.avgA, r.avgB, r.stdevA, r.stdevB, r.hist, 0⟩ ∧
    (∀ e ∈ (runRoundsProc true lookup elapsed fresh).1,
      e ≠ Ev.importModule ∧ e ≠ Ev.simulate ∧ e ≠ Ev.cacheInsert) ∧
    updateTimes times a b (runRoundsProc true lookup elapsed fresh).2.time = times := by
  subst hl
  refine ⟨rfl, ?_, ?_⟩
  · intro e he
    have hc : e = Ev.cacheGet := by simpa [runRoundsProc] using he
    subst hc
    decide
  · funext k
    simp [runRoundsProc, updateTimes]

/-- Witness for C10 at a concrete cache entry. -/
theorem runRounds_cache_hit_witness :
    (runRoundsProc true (some ⟨3, 5, 0, 0, [(1, 0)]⟩) 7 ⟨0, 0, 0, 0, []⟩).2 =
      ⟨true, 3, 5, 0, 0, [(1, 0)], 0⟩ ∧
    (∀ e ∈ (runRoundsProc true (some ⟨3, 5, 0, 0, [(1, 0)]⟩) 7 ⟨0, 0, 0, 0, []⟩).1,
      e ≠ Ev.importModule ∧ e ≠ Ev.simulate ∧ e ≠ Ev.cacheInsert) ∧
    updateTimes (fun _ => 0) 0 1
      (runRoundsProc true (some ⟨3, 5, 0, 0, [(1, 0)]⟩) 7 ⟨0, 0, 0, 0, []⟩).2.time =
      (fun _ => 0) :=
  runRounds_cache_hit (some ⟨3, 5, 0, 0, [(1, 0)]⟩) 7 ⟨0, 0, 0, 0, []⟩ ⟨3, 5, 0, 0, [(1, 0)]⟩
    (fun _ => 0) 0 1 rfl

/-! ## C6 -/

theorem runRound_hist_length {α β ρ : Type} (A : Strategy α ρ) (B : Strategy β ρ) :
    ∀ (n : Nat) (st : RoundState α β ρ), (runRound A B n st).hist.length = st.hist.length + n := by
  intro n
  induction n with
  | zero => intro st; simp [runRound]
  | succ n ih =>
    intro st
    rw [runRound, ih]
    simp [roundStep]
    omega

/-- C6: for any uniform draw `u ∈ [0, 1)`, the drawn game length
`int(200 - 40*log(1-u))` is at least 200 (the logarithm is nonpositive), and
the history grid of the resulting round — and its flipped view — has at
least 200 turns. -/
theorem lengthOfGame_ge_min (u : ℝ) (h0 : 0 ≤ u) (h1 : u < 1)
    {α β ρ : Type} (A : Strategy α ρ) (B : Strategy β ρ) (rng : ρ) :
    (200 : ℤ) ≤ LENGTH_OF_GAME u ∧
    200 ≤ (runRound A B (LENGTH_OF_GAME u).toNat
      (⟨[], none, none, rng⟩ : RoundState α β ρ)).hist.length ∧
    200 ≤ (flipHist (runRound A B (LENGTH_OF_GAME u).toNat
      (⟨[], none, none, rng⟩ : RoundState α β ρ)).hist).length := by
  have hlog : Real.log (1 - u) ≤ 0 := Real.log_nonpos (by linarith) (by linarith)
  have hle : (200 : ℝ) ≤ 200 - 40 * Real.log (1 - u) := by nlinarith
  have hfloor : (200 : ℤ) ≤ LENGTH_OF_GAME u := by
    rw [LENGTH_OF_GAME, Int.le_floor]
    exact_mod_cast hle
  have hnat : 200 ≤ (LENGTH_OF_GAME u).toNat := by omega
  have hlen := runRound_hist_length A B (LENGTH_OF_GAME u).toNat
    (⟨[], none, none, rng⟩ : RoundState α β ρ)
  refine ⟨hfloor, ?_, ?_⟩
  · rw [hlen]; simpa using hnat
  · rw [flipHist, List.length_map, hlen]; simpa using hnat

/-- Witness for C6 at the draw `u = 0` and the always-cooperate pair. -/
theorem lengthOfGame_ge_min_witness :
    (200 : ℤ) ≤ LENGTH_OF_GAME 0 ∧
    200 ≤ (runRound coopU coopU (LENGTH_OF_GAME 0).toNat
      (⟨[], none, none, ()⟩ : RoundState Unit Unit Unit)).hist.length ∧
    200 ≤ (flipHist (runRound coopU coopU (LENGTH_OF_GAME 0).toNat
      (⟨[], none, none, ()⟩ : RoundState Unit Unit Unit)).hist).length :=
  lengthOfGame_ge_min 0 (le_refl 0) (by norm_num) coopU coopU ()

/-! ## C1: the exact-expectation formula -/

theorem cumScoreA_succ (h : Hist) (n : Nat) :
    cumScoreA h (n + 1) = cumScoreA h n + payoffAtA h n := by
  rw [cumScoreA, cumScoreA, List.range_succ, List.map_append, List.sum_append]
  simp

theorem cumScoreB_succ (h : Hist) (n : Nat) :
    cumScoreB h (n + 1) = cumScoreB h n + payoffAtB h n := by
  rw [cumScoreB, cumScoreB, List.range_succ, List.map_append, List.sum_append]
  simp

theorem scoreStep_fold (h : Hist) :
    ∀ (k : Nat) (s : ℚ × ℚ),
      (List.range k).foldl (scoreStep h) s = (s.1 + cumScoreA h k, s.2 + cumScoreB h k) := by
  intro k
  induction k with
  | zero => intro s; simp [cumScoreA, cumScoreB]
  | succ k ih =>
    intro s
    rw [List.range_succ, List.foldl_append, ih, cumScoreA_succ, cumScoreB_succ]
    simp [scoreStep]
    constructor <;> ring

theorem totalStep_fold (chances : List ℚ) (h : Hist) :
    ∀ (n a : Nat) (tot : ℚ × ℚ),
      ((List.range' a n).foldl (totalStep chances h)
        ((cumScoreA h a, cumScoreB h a), tot)).2 =
      (tot.1 + ∑ t ∈ Finset.Ico a (a + n),
        cumScoreA h (t + 1) / ((t : ℚ) + 1) * chances.getD (t - 199) 0,
       tot.2 + ∑ t ∈ Finset.Ico a (a + n),
        cumScoreB h (t + 1) / ((t : ℚ) + 1) * chances.getD (t - 199) 0) := by
  intro n
  induction n with
  | zero => intro a tot; simp
  | succ n ih =>
    intro a tot
    rw [List.range'_succ, List.foldl_cons]
    have hstep : totalStep chances h ((cumScoreA h a, cumScoreB h a), tot) a =
        ((cumScoreA h (a + 1), cumScoreB h (a + 1)),
         (tot.1 + cumScoreA h (a + 1) / ((a : ℚ) + 1) * chances.getD (a - 199) 0,
          tot.2 + cumScoreB h (a + 1) / ((a : ℚ) + 1) * chances.getD (a - 199) 0)) := by
      rw [totalStep, scoreStep]
      simp [cumScoreA_succ, cumScoreB_succ]
    rw [hstep, ih]
    have hab : a < a + n + 1 := by omega
    have hco : a + 1 + n = a + n + 1 := by omega
    have hco2 : a + (n + 1) = a + n + 1 := by omega
    rw [hco, hco2, Finset.sum_eq_sum_Ico_succ_bot hab, Finset.sum_eq_sum_Ico_succ_bot hab]
    simp only [Prod.mk.injEq, Prod.fst, Prod.snd]
    constructor <;> ring

theorem detTotals_eq_expected (chances : List ℚ) (h : Hist) (D : Nat) :
    detTotals chances h D = (expectedTotalA chances h D, expectedTotalB chances h D) := by
  rw [detTotals, scoreStep_fold]
  have h0 : ((0 : ℚ) + cumScoreA h 199, (0 : ℚ) + cumScoreB h 199) =
      (cumScoreA h 199, cumScoreB h 199) := by simp
  rw [h0, totalStep_fold]
  rcases le_or_lt 199 D with hD | hD
  · have : 199 + (D - 199) = D := by omega
    rw [this, expectedTotalA, expectedTotalB]
    simp
  · have h1 : D - 199 = 0 := by omega
    have h2 : Finset.Ico 199 D = ∅ := Finset.Ico_eq_empty (by omega)
    rw [h1, expectedTotalA, expectedTotalB, h2]
    simp

/-- C1: whenever `runDeterministic` classifies a pair deterministic and
returns totals for history `h`, each player's total equals the sum over
truncation turns `t ∈ [199, D)` of that player's cumulative payoff through
turn `t` (accumulated from turn 0 onward), divided by `t+1`, weighted by the
normalized turn-chance table entry for stopping at `t`; turns before 199
contribute to the cumulative payoff but are not weighted stopping points. -/
theorem runDeterministic_exact_expectation {α β ρ : Type}
    (A : Strategy α ρ) (B : Strategy β ρ) (D : Nat) (rng : ρ)
    (tot : ℚ × ℚ) (h : Hist)
    (hrun : runDeterministic A B D rng = some (tot, h)) :
    tot.1 = expectedTotalA (turnChances D) h D ∧
    tot.2 = expectedTotalB (turnChances D) h D := by
  cases hdet : detRun A B D (detInit rng) with
  | none =>
    simp only [runDeterministic, hdet] at hrun
    exact Option.noConfusion hrun
  | some st =>
    simp only [runDeterministic, hdet, Option.some.injEq, Prod.mk.injEq] at hrun
    obtain ⟨h2, h3⟩ := hrun
    subst h3
    rw [← h2, detTotals_eq_expected]
    exact ⟨rfl, rfl⟩

/-- Witness for C1: the always-cooperate pair with deterministic turn count 2
(the weighted sum is empty there, so the totals are 0). -/
theorem runDeterministic_exact_expectation_witness :
    ((0, 0) : ℚ × ℚ).1 = expectedTotalA (turnChances 2) [(1, 1), (1, 1)] 2 ∧
    ((0, 0) : ℚ × ℚ).2 = expectedTotalB (turnChances 2) [(1, 1), (1, 1)] 2 :=
  runDeterministic_exact_expectation coopU coopU 2 () (0, 0) [(1, 1), (1, 1)] rfl

/-! ## C2: always-cooperate and always-defect pairs -/

theorem detRun_const {α β ρ : Type} (A : Strategy α ρ) (B : Strategy β ρ) (x y : Int)
    (hA : ∀ h m r, strategyMove (A h m r).1 = x)
    (hB : ∀ h m r, strategyMove (B h m r).1 = y) :
    ∀ (n : Nat) (st : DetState α β ρ), ∃ st', detRun A B n st = some st' ∧
      st'.hist = st.hist ++ List.replicate n (x, y) := by
  intro n
  induction n with
  | zero => intro st; exact ⟨st, rfl, by simp⟩
  | succ n ih =>
    intro st
    obtain ⟨st', h1, h2⟩ := ih ((detStep A B st).2)
    refine ⟨st', ?_, ?_⟩
    · rw [detRun]
      simp only [detStep, hA, hB, ne_eq, not_true_eq_false, if_false, ite_false]
      simpa [detStep, hA, hB] using h1
    · rw [h2]
      simp [detStep, hA, hB, List.replicate_succ]

theorem cumScoreA_replicate (x y : Int) (D n : Nat) (hn : n ≤ D) :
    cumScoreA (List.replicate D (x, y)) n = (n : ℚ) * payoff x y := by
  induction n with
  | zero => simp [cumScoreA]
  | succ n ih =>
    have hlt : n < D := by omega
    have hget : (List.replicate D (x, y)).getD n (0, 0) = (x, y) := by
      rw [List.getD_eq_getElem _ _ (by simpa using hlt)]
      simp
    rw [cumScoreA_succ, ih (by omega), payoffAtA, hget]
    push_cast
    ring

theorem cumScoreB_replicate (x y : Int) (D n : Nat) (hn : n ≤ D) :
    cumScoreB (List.replicate D (x, y)) n = (n : ℚ) * payoff y x := by
  induction n with
  | zero => simp [cumScoreB]
  | succ n ih =>
    have hlt : n < D := by omega
    have hget : (List.replicate D (x, y)).getD n (0, 0) = (x, y) := by
      rw [List.getD_eq_getElem _ _ (by simpa using hlt)]
      simp
    rw [cumScoreB_succ, ih (by omega), payoffAtB, hget]
    push_cast
    ring

theorem sum_Ico_getD (l : List ℚ) (a : Nat) :
    ∀ n, ∑ t ∈ Finset.Ico a (a + n), l.getD (t - a) 0 = ∑ i ∈ Finset.range n, l.getD i 0 := by
  intro n
  induction n with
  | zero => simp
  | succ n ih =>
    have hle : a ≤ a + n := by omega
    have : a + (n + 1) = (a + n) + 1 := by omega
    rw [this, Finset.sum_Ico_succ_top hle, ih, Finset.sum_range_succ]
    simp

theorem sum_getD_eq_sum (l : List ℚ) :
    ∑ i ∈ Finset.range l.length, l.getD i 0 = l.sum := by
  induction l with
  | nil => simp
  | cons x xs ih =>
    rw [List.length_cons, Finset.sum_range_succ']
    simp only [List.getD_cons_succ, List.getD_cons_zero]
    rw [ih, List.sum_cons]
    ring

theorem sum_Ico_turnChances (D : Nat) (hD : 200 ≤ D) :
    ∑ t ∈ Finset.Ico 199 D, (turnChances D).getD (t - 199) 0 = 1 := by
  have hlen : (turnChances D).length = D - 199 := by
    simp [turnChances, turnChancesRaw]
  have hsum := turnChances_sum D hD
  set l := turnChances D with hl
  rw [show D = 199 + (D - 199) from by omega, sum_Ico_getD l 199 (D - 199), ← hlen,
    sum_getD_eq_sum l]
  exact hsum

theorem expectedTotalA_replicate (x y : Int) (D : Nat) (hD : 200 ≤ D) :
    expectedTotalA (turnChances D) (List.replicate D (x, y)) D = payoff x y := by
  rw [expectedTotalA]
  have hcongr : ∀ t ∈ Finset.Ico 199 D,
      cumScoreA (List.replicate D (x, y)) (t + 1) / ((t : ℚ) + 1) *
        (turnChances D).getD (t - 199) 0 =
      payoff x y * (turnChances D).getD (t - 199) 0 := by
    intro t ht
    obtain ⟨_, ht2⟩ := Finset.mem_Ico.mp ht
    rw [cumScoreA_replicate x y D (t + 1) (by omega)]
    have hne : ((t : ℚ) + 1) ≠ 0 := by positivity
    push_cast
    field_simp
  rw [Finset.sum_congr rfl hcongr, ← Finset.mul_sum, sum_Ico_turnChances D hD, mul_one]

theorem expectedTotalB_replicate (x y : Int) (D : Nat) (hD : 200 ≤ D) :
    expectedTotalB (turnChances D) (List.replicate D (x, y)) D = payoff y x := by
  rw [expectedTotalB]
  have hcongr : ∀ t ∈ Finset.Ico 199 D,
      cumScoreB (List.replicate D (x, y)) (t + 1) / ((t : ℚ) + 1) *
        (turnChances D).getD (t - 199) 0 =
      payoff y x * (turnChances D).getD (t - 199) 0 := by
    intro t ht
    obtain ⟨_, ht2⟩ := Finset.mem_Ico.mp ht
    rw [cumScoreB_replicate x y D (t + 1) (by omega)]
    have hne : ((t : ℚ) + 1) ≠ 0 := by positivity
    push_cast
    field_simp
  rw [Finset.sum_congr rfl hcongr, ← Finset.mul_sum, sum_Ico_turnChances D hD, mul_one]

theorem runDeterministic_const {α β ρ : Type} (A : Strategy α ρ) (B : Strategy β ρ)
    (x y : Int) (D : Nat) (rng : ρ) (hD : 200 ≤ D)
    (hA : ∀ h m r, strategyMove (A h m r).1 = x)
    (hB : ∀ h m r, strategyMove (B h m r).1 = y) :
    runDeterministic A B D rng =
      some ((payoff x y, payoff y x), List.replicate D (x, y)) := by
  obtain ⟨st', h1, h2⟩ := detRun_const A B x y hA hB D (detInit rng)
  have h2' : st'.hist = List.replicate D (x, y) := by simpa [detInit] using h2
  simp only [runDeterministic, h1]
  rw [h2', detTotals_eq_expected,
    expectedTotalA_replicate x y D hD, expectedTotalB_replicate x y D hD]

/-- C2: for a pair of strategies that both always return cooperate (normalized
code 1) regardless of history and memory, the exact-expectation path yields an
expected average score of exactly 3 for both players; for a pair that both
always return defect (code 0) it yields exactly 1 for both — exactly, over
rational arithmetic, thanks to the renormalized turn-chance table. -/
theorem runDeterministic_mutual_coop_defect {α β ρ : Type}
    (A : Strategy α ρ) (B : Strategy β ρ) (D : Nat) (rng : ρ) (hD : 200 ≤ D) :
    ((∀ h m r, strategyMove (A h m r).1 = 1) → (∀ h m r, strategyMove (B h m r).1 = 1) →
      runDeterministic A B D rng = some ((3, 3), List.replicate D (1, 1))) ∧
    ((∀ h m r, strategyMove (A h m r).1 = 0) → (∀ h m r, strategyMove (B h m r).1 = 0) →
      runDeterministic A B D rng = some ((1, 1), List.replicate D (0, 0))) := by
  constructor
  · intro hA hB
    have := runDeterministic_const A B 1 1 D rng hD hA hB
    simpa [payoff, pointsArray] using this
  · intro hA hB
    have := runDeterministic_const A B 0 0 D rng hD hA hB
    simpa [payoff, pointsArray] using this

/-- Witness for C2: the concrete always-cooperate and always-defect
strategies at the default minimum deterministic turn count 200. -/
theorem runDeterministic_mutual_coop_defect_witness :
    runDeterministic coopU coopU 200 () = some ((3, 3), List.replicate 200 (1, 1)) ∧
    runDeterministic defectU defectU 200 () = some ((1, 1), List.replicate 200 (0, 0)) :=
  ⟨(runDeterministic_mutual_coop_defect coopU coopU 200 () (by decide)).1
      (fun _ _ _ => rfl) (fun _ _ _ => rfl),
   (runDeterministic_mutual_coop_defect defectU defectU 200 () (by decide)).2
      (fun _ _ _ => rfl) (fun _ _ _ => rfl)⟩

/-! ## C3: determinism oracle and stochastic fallback -/

theorem detRun_succ {α β ρ : Type} (A : Strategy α ρ) (B : Strategy β ρ)
    (n : Nat) (st : DetState α β ρ) :
    detRun A B (n + 1) st =
      if (detStep A B st).1.a2 ≠ (detStep A B st).1.a then none
      else if (detStep A B st).1.b2 ≠ (detStep A B st).1.b then none
      else detRun A B n (detStep A B st).2 := rfl

theorem detTrace_succ {α β ρ : Type} (A : Strategy α ρ) (B : Strategy β ρ)
    (n : Nat) (st : DetState α β ρ) :
    detTrace A B (n + 1) st = (detStep A B st).1 :: detTrace A B n (detStep A B st).2 := rfl

theorem detRun_none_iff {α β ρ : Type} (A : Strategy α ρ) (B : Strategy β ρ) :
    ∀ (n : Nat) (st : DetState α β ρ),
      detRun A B n st = none ↔
        ∃ t, t < n ∧ disagrees ((detTrace A B n st).getD t default) := by
  intro n
  induction n with
  | zero =>
    intro st
    simp [detRun, detTrace]
  | succ n ih =>
    intro st
    by_cases h1 : (detStep A B st).1.a2 ≠ (detStep A B st).1.a
    · rw [detRun_succ, if_pos h1, detTrace_succ]
      constructor
      · intro _
        exact ⟨0, by omega, by simpa [disagrees] using Or.inl h1⟩
      · intro _
        rfl
    · by_cases h2 : (detStep A B st).1.b2 ≠ (detStep A B st).1.b
      · rw [detRun_succ, if_neg h1, if_pos h2, detTrace_succ]
        constructor
        · intro _
          exact ⟨0, by omega, by simpa [disagrees] using Or.inr h2⟩
        · intro _
          rfl
      · rw [detRun_succ, if_neg h1, if_neg h2, detTrace_succ, ih]
        constructor
        · rintro ⟨t, ht, hd⟩
          exact ⟨t + 1, by omega, by simpa using hd⟩
        · rintro ⟨t, ht, hd⟩
          match t with
          | 0 =>
            rw [List.getD_cons_zero] at hd
            rcases hd with hd | hd
            · exact absurd hd h1
            · exact absurd hd h2
          | s + 1 =>
            rw [List.getD_cons_succ] at hd
            exact ⟨s, by omega, hd⟩

theorem detRun_some_length {α β ρ : Type} (A : Strategy α ρ) (B : Strategy β ρ) :
    ∀ (n : Nat) (st st' : DetState α β ρ), detRun A B n st = some st' →
      st'.hist.length = st.hist.length + n := by
  intro n
  induction n with
  | zero =>
    intro st st' hsome
    have : st = st' := Option.some.inj hsome
    subst this
    simp [detRun]
  | succ n ih =>
    intro st st' hsome
    rw [detRun_succ] at hsome
    by_cases h1 : (detStep A B st).1.a2 ≠ (detStep A B st).1.a
    · rw [if_pos h1] at hsome
      exact Option.noConfusion hsome
    · rw [if_neg h1] at hsome
      by_cases h2 : (detStep A B st).1.b2 ≠ (detStep A B st).1.b
      · rw [if_pos h2] at hsome
        exact Option.noConfusion hsome
      · rw [if_neg h2] at hsome
        have hstep : (detStep A B st).2.hist.length = st.hist.length + 1 := by
          simp [detStep]
        rw [ih _ _ hsome, hstep]
        omega

theorem stochScores_length {α β ρ : Type} (A : Strategy α ρ) (B : Strategy β ρ) :
    ∀ (n : Nat) (lens : Nat → Nat) (rng : ρ), (stochScores A B n lens rng).length = n := by
  intro n
  induction n with
  | zero => intro lens rng; rfl
  | succ n ih =>
    intro lens rng
    rw [stochScores, List.length_cons, ih]

/-- C3: `runDeterministic` returns the not-applicable result (`False`) if and
only if at some turn a strategy's probe invocation — same history snapshot,
independently threaded memory — produces a normalized move different from the
official move of that turn; when every turn agrees it returns the totals of
the scoring pass together with the full-length (`D`-turn) history; and when
it is not applicable, `runRounds` falls back to exactly `numRuns` sampled
stochastic rounds for the pairing. -/
theorem runDeterministic_none_iff_fallback {α β ρ : Type}
    (A : Strategy α ρ) (B : Strategy β ρ) (D : Nat) (rng : ρ)
    (numRuns : Nat) (lens : Nat → Nat) :
    (runDeterministic A B D rng = none ↔
      ∃ t, t < D ∧ disagrees ((detTrace A B D (detInit rng)).getD t default)) ∧
    (∀ (tot : ℚ × ℚ) (h : Hist), runDeterministic A B D rng = some (tot, h) →
      h.length = D ∧ tot = detTotals (turnChances D) h D) ∧
    (runDeterministic A B D rng = none →
      runRoundsScores A B D numRuns lens rng = stochScores A B numRuns lens rng ∧
      (runRoundsScores A B D numRuns lens rng).length = numRuns) := by
  refine ⟨?_, ?_, ?_⟩
  · have hiff : runDeterministic A B D rng = none ↔ detRun A B D (detInit rng) = none := by
      cases hdet : detRun A B D (detInit rng) with
      | none => simp [runDeterministic, hdet]
      | some st => simp [runDeterministic, hdet]
    rw [hiff]
    exact detRun_none_iff A B D (detInit rng)
  · intro tot h hsome
    cases hdet : detRun A B D (detInit rng) with
    | none =>
      rw [runDeterministic, hdet] at hsome
      exact Option.noConfusion hsome
    | some st =>
      simp only [runDeterministic, hdet, Option.some.injEq, Prod.mk.injEq] at hsome
      obtain ⟨h2, h3⟩ := hsome
      subst h3
      have hlen := detRun_some_length A B D (detInit rng) st hdet
      exact ⟨by simpa [detInit] using hlen, h2.symm⟩
  · intro hnone
    rw [runRoundsScores, hnone]
    exact ⟨rfl, stochScores_length A B numRuns lens rng⟩

/-- Witness for C3: the always-cooperate pair is classified deterministic at
`D = 1` with a full-length history, and the RNG-consulting pair `rndU` is
classified non-deterministic, after which the fallback runs exactly 2
stochastic rounds. -/
theorem runDeterministic_none_iff_fallback_witness :
    (([(1, 1)] : Hist).length = 1 ∧
      ((0, 0) : ℚ × ℚ) = detTotals (turnChances 1) [(1, 1)] 1) ∧
    (runRoundsScores rndU rndU 1 2 (fun _ => 1) 0 = stochScores rndU rndU 2 (fun _ => 1) 0 ∧
      (runRoundsScores rndU rndU 1 2 (fun _ => 1) 0).length = 2) :=
  ⟨(runDeterministic_none_iff_fallback coopU coopU 1 () 2 (fun _ => 1)).2.1
      (0, 0) [(1, 1)] rfl,
   (runDeterministic_none_iff_fallback rndU rndU 1 0 2 (fun _ => 1)).2.2 rfl⟩

/-! ## C4: cumulative scores and ranking order -/

theorem updateScores_apply (sk : Nat → ℚ) (r : (Nat × Nat) × (ℚ × ℚ)) (i : Nat) :
    updateScores sk r i =
      sk i + (if i = r.1.1 then r.2.1 else 0) + (if i = r.1.2 then r.2.2 else 0) := by
  rw [updateScores]
  split_ifs <;> simp_all

theorem scoreKeeper_foldl (results : List ((Nat × Nat) × (ℚ × ℚ))) :
    ∀ (sk : Nat → ℚ) (i : Nat),
      results.foldl updateScores sk i = sk i + cumOf i results := by
  induction results with
  | nil => intro sk i; simp [cumOf]
  | cons r rs ih =>
    intro sk i
    rw [List.foldl_cons, ih, updateScores_apply]
    simp only [cumOf, List.map_cons, List.sum_cons]
    ring

/-- The cumulative score of strategy `i` read from the score keeper equals the
sum of its mean scores over all its pairings. -/
theorem scoreKeeper_eq_cumOf (results : List ((Nat × Nat) × (ℚ × ℚ))) (i : Nat) :
    scoreKeeper results i = cumOf i results := by
  rw [scoreKeeper, scoreKeeper_foldl]
  simp

theorem scoresNumpy_getD (n : Nat) (results : List ((Nat × Nat) × (ℚ × ℚ)))
    (i : Nat) (hi : i < n) :
    (scoresNumpy n results).getD i 0 = scoreKeeper results i := by
  rw [scoresNumpy, List.getD_eq_getElem _ _ (by simpa using hi)]
  simp

/-- C4 (amended): each strategy's cumulative score is the sum of its mean
scores across all its pairings, and the printed ranking — the traversal
`rankings[-1-rank]` of any index order satisfying `np.argsort`'s contract,
namely an ascending-by-score permutation of all strategy indices (the
relative order of equal scores is unspecified for numpy's default sort) —
lists every strategy exactly once in descending (non-increasing) order of
cumulative score. No particular tie order is guaranteed; in particular the
original claim's earliest-first tie rule fails (see the counterexample). -/
theorem tournament_ranking (n : Nat) (results : List ((Nat × Nat) × (ℚ × ℚ)))
    (r : List Nat) (hperm : r.Perm (List.range n))
    (hsort : r.Pairwise (fun i j =>
      (scoresNumpy n results).getD i 0 ≤ (scoresNumpy n results).getD j 0)) :
    (∀ i, i < n → (scoresNumpy n results).getD i 0 = cumOf i results) ∧
    r.reverse.Perm (List.range n) ∧
    r.reverse.Pairwise (fun i j =>
      (scoresNumpy n results).getD j 0 ≤ (scoresNumpy n results).getD i 0) := by
  refine ⟨?_, ?_, ?_⟩
  · intro i hi
    rw [scoresNumpy_getD n results i hi, scoreKeeper_eq_cumOf]
  · exact (List.reverse_perm r).trans hperm
  · exact List.pairwise_reverse.mpr hsort

/-- Witness for C4: two strategies with one pairing scoring 3 and 5; the
index order `[0, 1]` is ascending by score, and the printed ranking `[1, 0]`
is descending. -/
theorem tournament_ranking_witness :
    (∀ i, i < 2 → (scoresNumpy 2 [((0, 1), ((3 : ℚ), (5 : ℚ)))]).getD i 0 =
      cumOf i [((0, 1), ((3 : ℚ), (5 : ℚ)))]) ∧
    ([0, 1] : List Nat).reverse.Perm (List.range 2) ∧
    ([0, 1] : List Nat).reverse.Pairwise (fun i j =>
      (scoresNumpy 2 [((0, 1), ((3 : ℚ), (5 : ℚ)))]).getD j 0 ≤
      (scoresNumpy 2 [((0, 1), ((3 : ℚ), (5 : ℚ)))]).getD i 0) :=
  tournament_ranking 2 [((0, 1), ((3 : ℚ), (5 : ℚ)))] [0, 1] (by decide)
    (by
      have hscores : scoresNumpy 2 [((0, 1), ((3 : ℚ), (5 : ℚ)))] = [3, 5] := by
        rw [scoresNumpy, List.range_succ, List.range_succ]
        simp only [List.range_zero, List.nil_append, List.map_append, List.map_cons,
          List.map_nil, scoreKeeper, List.foldl_cons, List.foldl_nil, updateScores]
        norm_num
      simp only [hscores]
      norm_num [List.pairwise_cons])

/-- C4 counterexample: with two strategies whose cumulative scores are equal
(one pairing scoring 3 for each), the printed ranking lists strategy 1 — the
LATER one in enumeration order — first, contradicting the claim that the
earlier strategy is ranked first on ties. -/
theorem tournament_ranking_tie_counterexample :
    cumOf 0 [((0, 1), ((3 : ℚ), (3 : ℚ)))] = cumOf 1 [((0, 1), ((3 : ℚ), (3 : ℚ)))] ∧
    rankingDesc (scoresNumpy 2 [((0, 1), ((3 : ℚ), (3 : ℚ)))]) = [1, 0] := by
  have hscores : scoresNumpy 2 [((0, 1), ((3 : ℚ), (3 : ℚ)))] = [3, 3] := by
    rw [scoresNumpy, List.range_succ, List.range_succ]
    simp only [List.range_zero, List.nil_append, List.map_append, List.map_cons, List.map_nil,
      scoreKeeper, List.foldl_cons, List.foldl_nil, updateScores]
    norm_num
  constructor
  · simp [cumOf]
  · rw [hscores]
    rfl
